import Mathlib

/-!
Shallow embedding of `src/realestateengine.py` (classes `Property` and
`PropertyListingEngine`) and proofs about it.

Modelling conventions:
- Python strings are lists of character codes (`List Nat`); `str.lower` is
  modelled on ASCII codes by `pyLower`.
- Python floats (prices) are modelled as integers: the engine only ever
  compares prices, never does arithmetic on them, so any linearly ordered
  price domain is faithful for these operations.
- Python dicts are association lists (`alistLookup` / `alistInsert` /
  `alistErase` mirror `d[k]`, `d[k] = v`, `del d[k]`, `k in d`).
- Python list indices in the sort and binary searches are `Int`, matching
  Python arithmetic exactly (`Int` division in Lean is floor division for
  the nonnegative divisors used here, as `//` is in Python).  List reads
  `items[i]` are modelled with `priceAt` / `listSwap`, which are total; at
  every call site in the engine the index is in bounds, so the out-of-range
  defaults are never exercised.
-/

/-- ASCII lower-casing of one character code, as Python `str.lower` acts on ASCII. -/
def pyLower (c : Nat) : Nat := if 65 ≤ c ∧ c ≤ 90 then c + 32 else c

/-- One step of the rolling hash: `hash_value = (prime * hash_value + ord(char)) & 0xFFFFFFFF`
(masking with `0xFFFFFFFF` is reduction mod `2^32`). -/
def hashStep (h c : Nat) : Nat := (31 * h + c) % 4294967296

/-- Embedding of `PropertyListingEngine._hash_location`: lower-case, remove the
space character (`location.lower().replace(" ", "")`), then fold the rolling hash. -/
def hash_location (location : List Nat) : Nat :=
  ((location.map pyLower).filter (fun c => decide (c ≠ 32))).foldl hashStep 0

/-- Python whitespace character codes (ASCII range). -/
def isPythonSpace (c : Nat) : Bool := c == 9 || c == 10 || c == 11 || c == 12 || c == 13 || c == 32

/-- Modelled from the spec: the location key function as the spec describes it,
normalizing by stripping ALL whitespace (not only the space character) before
hashing.  Used only to compare the spec's description against `hash_location`. -/
def spec_hash_location (location : List Nat) : Nat :=
  ((location.map pyLower).filter (fun c => !(isPythonSpace c))).foldl hashStep 0

/-- Embedding of the Python class `Property`. -/
structure Property where
  id : Nat
  title : List Nat
  location : List Nat
  price : Int
  property_type : List Nat
deriving DecidableEq

/-- Dict read `m[k]` / `m.get(k)`. -/
def alistLookup {α : Type} (m : List (Nat × α)) (k : Nat) : Option α :=
  match m with
  | [] => none
  | (k1, v) :: rest => if k1 = k then some v else alistLookup rest k

/-- Dict write `m[k] = v` (replaces in place or appends). -/
def alistInsert {α : Type} (m : List (Nat × α)) (k : Nat) (v : α) : List (Nat × α) :=
  match m with
  | [] => [(k, v)]
  | (k1, v1) :: rest => if k1 = k then (k1, v) :: rest else (k1, v1) :: alistInsert rest k v

/-- Dict delete `del m[k]`. -/
def alistErase {α : Type} (m : List (Nat × α)) (k : Nat) : List (Nat × α) :=
  m.filter (fun kv => decide (kv.1 ≠ k))

/-- Embedding of the state of a `PropertyListingEngine` instance. -/
structure PropertyListingEngine where
  properties : List Property
  location_map : List (Nat × List Property)
  id_map : List (Nat × Property)
  next_id : Nat
deriving DecidableEq

/-- The state built by `PropertyListingEngine.__init__`. -/
def emptyEngine : PropertyListingEngine := ⟨[], [], [], 1⟩

/-- Embedding of `PropertyListingEngine.add_property`.  Returns the assigned id
together with the successor state. -/
def add_property (e : PropertyListingEngine) (title location : List Nat) (price : Int)
    (property_type : List Nat) : Nat × PropertyListingEngine :=
  let property_id := e.next_id
  let new_property : Property := ⟨property_id, title, location, price, property_type⟩
  let location_key := hash_location location
  let location_map :=
    match alistLookup e.location_map location_key with
    | none => alistInsert e.location_map location_key [new_property]
    | some bucket => alistInsert e.location_map location_key (bucket ++ [new_property])
  (property_id,
   ⟨e.properties ++ [new_property], location_map,
    alistInsert e.id_map property_id new_property, e.next_id + 1⟩)

/-- Embedding of `PropertyListingEngine.delete_property`.  Returns the boolean
result together with the successor state. -/
def delete_property (e : PropertyListingEngine) (property_id : Nat) :
    Bool × PropertyListingEngine :=
  match alistLookup e.id_map property_id with
  | none => (false, e)
  | some deleted =>
    let location_key := hash_location deleted.location
    let location_map :=
      match alistLookup e.location_map location_key with
      | some bucket =>
          alistInsert e.location_map location_key
            (bucket.filter (fun p => decide (p.id ≠ property_id)))
      | none => e.location_map
    (true,
     ⟨e.properties.filter (fun p => decide (p.id ≠ property_id)), location_map,
      alistErase e.id_map property_id, e.next_id⟩)

/-- Embedding of `PropertyListingEngine.search_by_location`. -/
def search_by_location (e : PropertyListingEngine) (location : List Nat) : List Property :=
  match alistLookup e.location_map (hash_location location) with
  | some bucket => bucket
  | none => []

/-- Embedding of `PropertyListingEngine.get_all_properties`. -/
def get_all_properties (e : PropertyListingEngine) : List Property := e.properties

/-- Price of the record at index `i` (`items[i].price`); every call site in the
engine keeps `i` nonnegative and in bounds, so the default is never exercised. -/
def priceAt (items : List Property) (i : Int) : Int :=
  match items[i.toNat]? with
  | some p => p.price
  | none => 0

/-- Embedding of the Python simultaneous swap `items[i], items[j] = items[j], items[i]`. -/
def listSwap (items : List Property) (i j : Nat) : List Property :=
  match items[i]?, items[j]? with
  | some a, some b => (items.set i b).set j a
  | _, _ => items

/-- The partition for-loop of `_quick_sort_by_price`
(`for current in range(low, high)` with running boundary `left_pointer`). -/
def partition_loop (items : List Property) (pivot_price : Int)
    (left_pointer current high : Int) : List Property × Int :=
  if current < high then
    if priceAt items current ≤ pivot_price then
      partition_loop (listSwap items left_pointer.toNat current.toNat) pivot_price
        (left_pointer + 1) (current + 1) high
    else
      partition_loop items pivot_price left_pointer (current + 1) high
  else (items, left_pointer)
termination_by (high - current).toNat
decreasing_by all_goals omega

/-- Embedding of `PropertyListingEngine._quick_sort_by_price`. -/
def quick_sort_by_price (items : List Property) (low high : Int) : List Property :=
  if low ≥ high then items
  else
    let mid : Int := (low + high) / 2
    let items1 := listSwap items mid.toNat high.toNat
    let pivot_price := priceAt items1 high
    let pr := partition_loop items1 pivot_price low low high
    let items2 := listSwap pr.1 pr.2.toNat high.toNat
    let items3 := quick_sort_by_price items2 low (pr.2 - 1)
    quick_sort_by_price items3 (pr.2 + 1) high
termination_by (high - low).toNat
decreasing_by
  all_goals
    (have key : ∀ (n : Nat) (pp lp cur : Int) (its : List Property),
        (high - cur).toNat ≤ n → lp ≤ cur → cur ≤ high →
        lp ≤ (partition_loop its pp lp cur high).2 ∧
          (partition_loop its pp lp cur high).2 ≤ high := by
      intro n
      induction n with
      | zero =>
        intro pp lp cur its hn h1 h2
        rw [partition_loop]
        have hc : ¬ (cur < high) := by omega
        simp only [hc, if_false]
        omega
      | succ n ih =>
        intro pp lp cur its hn h1 h2
        rw [partition_loop]
        by_cases hc : cur < high
        · simp only [hc, if_true]
          by_cases hp : priceAt its cur ≤ pp
          · simp only [hp, if_true]
            have := ih pp (lp + 1) (cur + 1)
              (listSwap its lp.toNat cur.toNat) (by omega) (by omega) (by omega)
            omega
          · simp only [hp, if_false]
            have := ih pp lp (cur + 1) its (by omega) (by omega) (by omega)
            omega
        · simp only [hc, if_false]
          omega)
    have hb := key (high - low).toNat
      (priceAt (listSwap items ((low + high) / 2).toNat high.toNat) high)
      low low (listSwap items ((low + high) / 2).toNat high.toNat)
      (by omega) (by omega) (by omega)
    omega

/-- Embedding of `PropertyListingEngine.sort_properties_by_price`. -/
def sort_properties_by_price (e : PropertyListingEngine) (ascending : Bool) : List Property :=
  if e.properties = [] then []
  else
    let result := quick_sort_by_price e.properties 0 ((e.properties.length : Int) - 1)
    if ascending then result else result.reverse

/-- The while-loop of `_binary_search_min_price`. -/
def bs_min_loop (s : List Property) (min_price : Int) (left right result : Int) : Int :=
  if left ≤ right then
    let mid := (left + right) / 2
    if min_price ≤ priceAt s mid then bs_min_loop s min_price left (mid - 1) mid
    else bs_min_loop s min_price (mid + 1) right result
  else result
termination_by (right + 1 - left).toNat
decreasing_by all_goals omega

/-- Embedding of `PropertyListingEngine._binary_search_min_price`. -/
def binary_search_min_price (s : List Property) (min_price : Int) : Int :=
  bs_min_loop s min_price 0 ((s.length : Int) - 1) (s.length : Int)

/-- The while-loop of `_binary_search_max_price`. -/
def bs_max_loop (s : List Property) (max_price : Int) (left right result : Int) : Int :=
  if left ≤ right then
    let mid := (left + right) / 2
    if priceAt s mid ≤ max_price then bs_max_loop s max_price (mid + 1) right mid
    else bs_max_loop s max_price left (mid - 1) result
  else result
termination_by (right + 1 - left).toNat
decreasing_by all_goals omega

/-- Embedding of `PropertyListingEngine._binary_search_max_price`. -/
def binary_search_max_price (s : List Property) (max_price : Int) : Int :=
  bs_max_loop s max_price 0 ((s.length : Int) - 1) (-1)

/-- Python slice `l[a:b]` for `0 ≤ a` (the only case the engine uses). -/
def listSlice (l : List Property) (a b : Int) : List Property :=
  (l.drop a.toNat).take (b - a).toNat

/-- Embedding of `PropertyListingEngine.search_by_price_range`. -/
def search_by_price_range (e : PropertyListingEngine) (min_price max_price : Int) :
    List Property :=
  let sorted_properties := sort_properties_by_price e true
  let start_idx := binary_search_min_price sorted_properties min_price
  let end_idx := binary_search_max_price sorted_properties max_price
  if start_idx ≤ end_idx ∧ start_idx < (sorted_properties.length : Int) then
    listSlice sorted_properties start_idx (end_idx + 1)
  else []

/-- One public mutating call on the engine. -/
inductive EngineOp where
  | add (title location : List Nat) (price : Int) (property_type : List Nat)
  | del (id : Nat)

/-- State transition of one mutating call. -/
def applyOp (e : PropertyListingEngine) (op : EngineOp) : PropertyListingEngine :=
  match op with
  | .add t l p ty => (add_property e t l p ty).2
  | .del i => (delete_property e i).2

/-- The engine state after a finite sequence of add/delete calls on a fresh engine. -/
def run_ops (ops : List EngineOp) : PropertyListingEngine :=
  ops.foldl applyOp emptyEngine

/-- State transition of one mutating call, also collecting the id an add returns. -/
def applyOpIds (s : PropertyListingEngine × List Nat) (op : EngineOp) :
    PropertyListingEngine × List Nat :=
  match op with
  | .add t l p ty =>
      let r := add_property s.1 t l p ty
      (r.2, s.2 ++ [r.1])
  | .del i => ((delete_property s.1 i).2, s.2)

/-- Runs a sequence of operations, collecting the ids returned by the add calls. -/
def run_ops_ids (ops : List EngineOp) : PropertyListingEngine × List Nat :=
  ops.foldl applyOpIds (emptyEngine, [])

/-- Character codes of the raw location text "New York". -/
def codesNewYork : List Nat := [78, 101, 119, 32, 89, 111, 114, 107]

/-- Character codes of the raw location text "new  york" (two internal spaces). -/
def codesNewYork2 : List Nat := [110, 101, 119, 32, 32, 121, 111, 114, 107]

/-- The synchronization invariant tying the three views of the index together. -/
structure EngineInv (e : PropertyListingEngine) : Prop where
  idmap_sound : ∀ i p, alistLookup e.id_map i = some p → p.id = i ∧ p ∈ e.properties
  idmap_complete : ∀ p, p ∈ e.properties → alistLookup e.id_map p.id = some p
  loc_sound : ∀ k b, alistLookup e.location_map k = some b → ∀ p, p ∈ b →
    p ∈ e.properties ∧ hash_location p.location = k
  loc_complete : ∀ p, p ∈ e.properties → ∃ b,
    alistLookup e.location_map (hash_location p.location) = some b ∧ p ∈ b
  ids_lt : ∀ p, p ∈ e.properties → p.id < e.next_id

/-- A concrete two-record engine used to instantiate theorems with hypotheses. -/
def exampleEngine : PropertyListingEngine :=
  (add_property (add_property emptyEngine [] [] 3 []).2 [] [] 7 []).2

/-- A concrete price-sorted list used to instantiate theorems with hypotheses. -/
def exampleSorted : List Property := [⟨1, [], [], 2, []⟩, ⟨2, [], [], 4, []⟩]

/-! ### Association list lemmas -/

theorem alistLookup_insert_self {α : Type} (m : List (Nat × α)) (k : Nat) (v : α) :
    alistLookup (alistInsert m k v) k = some v := by
  induction m with
  | nil => simp [alistInsert, alistLookup]
  | cons kv rest ih =>
    obtain ⟨k1, v1⟩ := kv
    by_cases h : k1 = k
    · simp [alistInsert, alistLookup, h]
    · simp [alistInsert, alistLookup, h, ih]

theorem alistLookup_insert_ne {α : Type} (m : List (Nat × α)) (k k2 : Nat) (v : α)
    (h : k ≠ k2) : alistLookup (alistInsert m k v) k2 = alistLookup m k2 := by
  induction m with
  | nil => simp [alistInsert, alistLookup, h]
  | cons kv rest ih =>
    obtain ⟨k1, v1⟩ := kv
    by_cases h1 : k1 = k
    · subst h1
      simp [alistInsert, alistLookup, h]
    · simp [alistInsert, alistLookup, h1, ih]

theorem alistLookup_erase_self {α : Type} (m : List (Nat × α)) (k : Nat) :
    alistLookup (alistErase m k) k = none := by
  induction m with
  | nil => simp [alistErase, alistLookup]
  | cons kv rest ih =>
    obtain ⟨k1, v1⟩ := kv
    by_cases h : k1 = k
    · simpa [alistErase, alistLookup, h] using ih
    · simpa [alistErase, alistLookup, h] using ih

theorem alistLookup_erase_ne {α : Type} (m : List (Nat × α)) (k k2 : Nat) (h : k ≠ k2) :
    alistLookup (alistErase m k) k2 = alistLookup m k2 := by
  induction m with
  | nil => simp [alistErase, alistLookup]
  | cons kv rest ih =>
    obtain ⟨k1, v1⟩ := kv
    by_cases h1 : k1 = k
    · subst h1
      simpa [alistErase, alistLookup, h] using ih
    · by_cases h2 : k1 = k2
      · subst h2
        simp [alistErase, alistLookup, List.filter_cons, h1]
      · simpa [alistErase, alistLookup, List.filter_cons, h1, h2] using ih

/-! ### Rolling hash lemmas -/

theorem hashStep_lt (h c : Nat) : hashStep h c < 4294967296 :=
  Nat.mod_lt _ (by norm_num)

theorem foldl_hashStep_lt (l : List Nat) (h : Nat) (hh : h < 4294967296) :
    l.foldl hashStep h < 4294967296 := by
  induction l generalizing h with
  | nil => simpa using hh
  | cons c rest ih => exact ih (hashStep h c) (hashStep_lt h c)

theorem hash_location_lt (location : List Nat) : hash_location location < 4294967296 :=
  foldl_hashStep_lt _ 0 (by norm_num)

theorem hash_location_congr (s1 s2 : List Nat)
    (h : (s1.map pyLower).filter (fun c => decide (c ≠ 32)) =
         (s2.map pyLower).filter (fun c => decide (c ≠ 32))) :
    hash_location s1 = hash_location s2 := by
  unfold hash_location
  rw [h]

/-! ### Swap lemmas -/

theorem listSwap_eq (l : List Property) (i j : Nat) (hi : i < l.length) (hj : j < l.length) :
    listSwap l i j = (l.set i l[j]).set j l[i] := by
  unfold listSwap
  rw [List.getElem?_eq_getElem hi, List.getElem?_eq_getElem hj]

theorem listSwap_length (l : List Property) (i j : Nat) :
    (listSwap l i j).length = l.length := by
  unfold listSwap
  split <;> simp

theorem listSwap_getElem?_other (l : List Property) (i j k : Nat) (hki : k ≠ i) (hkj : k ≠ j) :
    (listSwap l i j)[k]? = l[k]? := by
  unfold listSwap
  split
  · rw [List.getElem?_set_ne (Ne.symm hkj), List.getElem?_set_ne (Ne.symm hki)]
  · rfl

theorem listSwap_getElem?_fst (l : List Property) (i j : Nat)
    (hi : i < l.length) (hj : j < l.length) : (listSwap l i j)[i]? = l[j]? := by
  rw [listSwap_eq l i j hi hj]
  by_cases hij : i = j
  · subst hij
    simp [List.getElem?_set, hi, List.getElem?_eq_getElem hi]
  · rw [List.getElem?_set_ne (Ne.symm hij), List.getElem?_set_eq_of_lt _ hi,
      List.getElem?_eq_getElem hj]

theorem listSwap_getElem?_snd (l : List Property) (i j : Nat)
    (hi : i < l.length) (hj : j < l.length) : (listSwap l i j)[j]? = l[i]? := by
  rw [listSwap_eq l i j hi hj]
  have hj2 : j < (l.set i l[j]).length := by simpa using hj
  rw [List.getElem?_set_eq_of_lt _ hj2, List.getElem?_eq_getElem hi]

theorem listSwap_perm (l : List Property) (i j : Nat) : (listSwap l i j).Perm l := by
  by_cases hi : i < l.length
  · by_cases hj : j < l.length
    · rw [listSwap_eq l i j hi hj, List.perm_iff_count]
      intro x
      have hj2 : j < (l.set i l[j]).length := by simpa using hj
      rw [List.count_set _ _ _ _ hj2, List.count_set _ _ _ _ hi]
      have hval : (l.set i l[j])[j] = l[j] := by
        rw [List.getElem_set]
        split <;> rfl
      rw [hval]
      have hmi : (if (l[i] == x) = true then 1 else 0) ≤ l.count x := by
        split
        · rename_i hx
          have : l[i] ∈ l := List.getElem_mem hi
          rw [eq_of_beq hx] at this
          exact List.count_pos_iff.mpr this
        · exact Nat.zero_le _
      have hmj : (if (l[j] == x) = true then 1 else 0) ≤ l.count x := by
        split
        · rename_i hx
          have : l[j] ∈ l := List.getElem_mem hj
          rw [eq_of_beq hx] at this
          exact List.count_pos_iff.mpr this
        · exact Nat.zero_le _
      omega
    · unfold listSwap
      rcases h1 : l[i]? with _ | a
      · rfl
      · rcases h2 : l[j]? with _ | b
        · rfl
        · rw [List.getElem?_eq_some] at h2
          exact absurd h2.1 hj
  · unfold listSwap
    rcases h1 : l[i]? with _ | a
    · rfl
    · rw [List.getElem?_eq_some] at h1
      exact absurd h1.1 hi

/-! ### Indexed price lemmas -/

theorem priceAt_congr (l1 l2 : List Property) (k : Int) (h : l1[k.toNat]? = l2[k.toNat]?) :
    priceAt l1 k = priceAt l2 k := by
  unfold priceAt
  rw [h]

theorem priceAt_eq_getElem (l : List Property) (k : Int) (h : k.toNat < l.length) :
    priceAt l k = l[k.toNat].price := by
  unfold priceAt
  rw [List.getElem?_eq_getElem h]

theorem priceAt_swap_fst (l : List Property) (i j : Int) (h0i : 0 ≤ i) (h0j : 0 ≤ j)
    (hi : i < (l.length : Int)) (hj : j < (l.length : Int)) :
    priceAt (listSwap l i.toNat j.toNat) i = priceAt l j := by
  unfold priceAt
  rw [listSwap_getElem?_fst l i.toNat j.toNat (by omega) (by omega)]

theorem priceAt_swap_snd (l : List Property) (i j : Int) (h0i : 0 ≤ i) (h0j : 0 ≤ j)
    (hi : i < (l.length : Int)) (hj : j < (l.length : Int)) :
    priceAt (listSwap l i.toNat j.toNat) j = priceAt l i := by
  unfold priceAt
  rw [listSwap_getElem?_snd l i.toNat j.toNat (by omega) (by omega)]

theorem priceAt_swap_other (l : List Property) (i j k : Int) (h0i : 0 ≤ i) (h0j : 0 ≤ j)
    (h0k : 0 ≤ k) (hki : k ≠ i) (hkj : k ≠ j) :
    priceAt (listSwap l i.toNat j.toNat) k = priceAt l k := by
  unfold priceAt
  rw [listSwap_getElem?_other l i.toNat j.toNat k.toNat (by omega) (by omega)]

theorem swap_transfer (l : List Property) (i j a b : Int) (P : Int → Prop)
    (h0 : 0 ≤ a) (hia : a ≤ i) (hib : i ≤ b) (hja : a ≤ j) (hjb : j ≤ b)
    (hi : i < (l.length : Int)) (hj : j < (l.length : Int))
    (hP : ∀ k : Int, a ≤ k → k ≤ b → P (priceAt l k)) :
    ∀ k : Int, a ≤ k → k ≤ b → P (priceAt (listSwap l i.toNat j.toNat) k) := by
  intro k hka hkb
  by_cases hki : k = i
  · subst hki
    rw [priceAt_swap_fst l k j (by omega) (by omega) hi hj]
    exact hP j hja hjb
  · by_cases hkj : k = j
    · subst hkj
      rw [priceAt_swap_snd l i k (by omega) (by omega) hi hj]
      exact hP i hia hib
    · rw [priceAt_swap_other l i j k (by omega) (by omega) (by omega) hki hkj]
      exact hP k hka hkb

/-! ### Partition loop correctness -/

theorem partition_loop_spec (n : Nat) :
    ∀ (pp lp cur high : Int) (items : List Property),
      (high - cur).toNat ≤ n →
      0 ≤ lp → lp ≤ cur → cur ≤ high → high < (items.length : Int) →
      (∀ k : Int, lp ≤ k → k < cur → pp < priceAt items k) →
      (partition_loop items pp lp cur high).1.length = items.length ∧
      lp ≤ (partition_loop items pp lp cur high).2 ∧
      (partition_loop items pp lp cur high).2 ≤ high ∧
      (∀ k : Nat, ((k : Int) < lp ∨ high ≤ (k : Int)) →
        (partition_loop items pp lp cur high).1[k]? = items[k]?) ∧
      (partition_loop items pp lp cur high).1.Perm items ∧
      (∀ k : Int, lp ≤ k → k < (partition_loop items pp lp cur high).2 →
        priceAt (partition_loop items pp lp cur high).1 k ≤ pp) ∧
      (∀ k : Int, (partition_loop items pp lp cur high).2 ≤ k → k < high →
        pp < priceAt (partition_loop items pp lp cur high).1 k) ∧
      (∀ P : Int → Prop, (∀ k : Int, lp ≤ k → k < high → P (priceAt items k)) →
        ∀ k : Int, lp ≤ k → k < high → P (priceAt (partition_loop items pp lp cur high).1 k)) := by
  induction n with
  | zero =>
    intro pp lp cur high items hn h0 hlc hch hhl hleft
    rw [partition_loop]
    have hc : ¬ (cur < high) := by omega
    rw [if_neg hc]
    have hcur : cur = high := by omega
    refine ⟨rfl, le_refl _, by omega, fun k hk => rfl, List.Perm.refl _, ?_, ?_, ?_⟩
    · intro k hk1 hk2
      omega
    · intro k hk1 hk2
      exact hleft k hk1 (by omega)
    · intro P hP k hk1 hk2
      exact hP k hk1 hk2
  | succ n ih =>
    intro pp lp cur high items hn h0 hlc hch hhl hleft
    rw [partition_loop]
    by_cases hc : cur < high
    · rw [if_pos hc]
      by_cases hp : priceAt items cur ≤ pp
      · rw [if_pos hp]
        have hlplen : lp < (items.length : Int) := by omega
        have hcurlen : cur < (items.length : Int) := by omega
        have hswlen : (listSwap items lp.toNat cur.toNat).length = items.length :=
          listSwap_length items lp.toNat cur.toNat
        have hleft2 : ∀ k : Int, lp + 1 ≤ k → k < cur + 1 →
            pp < priceAt (listSwap items lp.toNat cur.toNat) k := by
          intro k hk1 hk2
          by_cases hkc : k = cur
          · subst hkc
            rw [priceAt_swap_snd items lp k (by omega) (by omega) hlplen hcurlen]
            exact hleft lp (le_refl _) (by omega)
          · rw [priceAt_swap_other items lp cur k (by omega) (by omega) (by omega)
              (by omega) hkc]
            exact hleft k (by omega) (by omega)
        obtain ⟨ihlen, ihlp1, ihlp2, ihut, ihperm, ihle, ihgt, ihtr⟩ :=
          ih pp (lp + 1) (cur + 1) high (listSwap items lp.toNat cur.toNat)
            (by omega) (by omega) (by omega) (by omega) (by omega) hleft2
        refine ⟨ihlen.trans hswlen, by omega, ihlp2, ?_, ?_, ?_, ihgt, ?_⟩
        · intro k hk
          rw [ihut k (by omega)]
          exact listSwap_getElem?_other items lp.toNat cur.toNat k (by omega) (by omega)
        · exact ihperm.trans (listSwap_perm items lp.toNat cur.toNat)
        · intro k hk1 hk2
          by_cases hkl : k = lp
          · subst hkl
            rw [priceAt_congr _ _ k (ihut k.toNat (by omega))]
            rw [priceAt_swap_fst items k cur (by omega) (by omega) hlplen hcurlen]
            exact hp
          · exact ihle k (by omega) hk2
        · intro P hP k hk1 hk2
          have hPsw : ∀ k2 : Int, lp + 1 ≤ k2 → k2 < high →
              P (priceAt (listSwap items lp.toNat cur.toNat) k2) := by
            intro k2 h1 h2
            by_cases hk2c : k2 = cur
            · subst hk2c
              rw [priceAt_swap_snd items lp k2 (by omega) (by omega) hlplen hcurlen]
              exact hP lp (le_refl _) (by omega)
            · rw [priceAt_swap_other items lp cur k2 (by omega) (by omega) (by omega)
                (by omega) hk2c]
              exact hP k2 (by omega) h2
          by_cases hkl : k = lp
          · subst hkl
            rw [priceAt_congr _ _ k (ihut k.toNat (by omega))]
            rw [priceAt_swap_fst items k cur (by omega) (by omega) hlplen hcurlen]
            exact hP cur (by omega) (by omega)
          · exact ihtr P hPsw k (by omega) hk2
      · rw [if_neg hp]
        have hleft2 : ∀ k : Int, lp ≤ k → k < cur + 1 → pp < priceAt items k := by
          intro k hk1 hk2
          by_cases hkc : k = cur
          · subst hkc
            omega
          · exact hleft k hk1 (by omega)
        exact ih pp lp (cur + 1) high items (by omega) h0 (by omega) (by omega) hhl hleft2
    · rw [if_neg hc]
      have hcur : cur = high := by omega
      refine ⟨rfl, le_refl _, by omega, fun k hk => rfl, List.Perm.refl _, ?_, ?_, ?_⟩
      · intro k hk1 hk2
        omega
      · intro k hk1 hk2
        exact hleft k hk1 (by omega)
      · intro P hP k hk1 hk2
        exact hP k hk1 hk2

/-! ### Quicksort correctness -/

theorem quick_sort_spec (n : Nat) :
    ∀ (low high : Int) (items : List Property),
      (high - low).toNat ≤ n → 0 ≤ low → high < (items.length : Int) →
      (quick_sort_by_price items low high).length = items.length ∧
      (∀ k : Nat, ((k : Int) < low ∨ high < (k : Int)) →
        (quick_sort_by_price items low high)[k]? = items[k]?) ∧
      (quick_sort_by_price items low high).Perm items ∧
      (∀ P : Int → Prop, (∀ k : Int, low ≤ k → k ≤ high → P (priceAt items k)) →
        ∀ k : Int, low ≤ k → k ≤ high → P (priceAt (quick_sort_by_price items low high) k)) ∧
      (∀ t u : Int, low ≤ t → t < u → u ≤ high →
        priceAt (quick_sort_by_price items low high) t ≤
          priceAt (quick_sort_by_price items low high) u) := by
  induction n with
  | zero =>
    intro low high items hn h0 hhl
    have hge : low ≥ high := by omega
    rw [quick_sort_by_price, if_pos hge]
    exact ⟨rfl, fun k hk => rfl, List.Perm.refl _, fun P hP => hP,
      fun t u ht htu hu => ((by omega : False)).elim⟩
  | succ n ih =>
    intro low high items hn h0 hhl
    by_cases hge : low ≥ high
    · rw [quick_sort_by_price, if_pos hge]
      exact ⟨rfl, fun k hk => rfl, List.Perm.refl _, fun P hP => hP,
        fun t u ht htu hu => ((by omega : False)).elim⟩
    · rw [quick_sort_by_price, if_neg hge]
      simp only []
      set m : Int := (low + high) / 2 with hm
      have hmid : low ≤ m ∧ m ≤ high := by omega
      set s1 : List Property := listSwap items m.toNat high.toNat with hs1
      have hlen1 : s1.length = items.length := listSwap_length items m.toNat high.toNat
      set pp : Int := priceAt s1 high with hpp
      set pr : List Property × Int := partition_loop s1 pp low low high with hpr
      obtain ⟨plen, plp1, plp2, put, pperm, ple, pgt, ptr⟩ :=
        partition_loop_spec (high - low).toNat pp low low high s1 (le_refl _) h0 (le_refl _)
          (by omega) (by rw [hlen1]; exact hhl) (fun k hk1 hk2 => ((by omega : False)).elim)
      rw [← hpr] at plen plp1 plp2 put pperm ple pgt ptr
      set s2 : List Property := listSwap pr.1 pr.2.toNat high.toNat with hs2
      have hlen2 : s2.length = items.length := by
        rw [hs2, listSwap_length, plen, hlen1]
      have hprlen : (pr.1.length : Int) = (items.length : Int) := by
        rw [plen, hlen1]
      obtain ⟨ih1len, ih1ut, ih1perm, ih1tr, ih1sort⟩ :=
        ih low (pr.2 - 1) s2 (by omega) h0 (by rw [hlen2]; omega)
      set s3 : List Property := quick_sort_by_price s2 low (pr.2 - 1) with hs3
      have hlen3 : s3.length = items.length := by rw [hs3, ih1len, hlen2]
      obtain ⟨ih2len, ih2ut, ih2perm, ih2tr, ih2sort⟩ :=
        ih (pr.2 + 1) high s3 (by omega) (by omega) (by rw [hlen3]; exact hhl)
      set s4 : List Property := quick_sort_by_price s3 (pr.2 + 1) high with hs4
      -- prices at intermediate stages
      have pf0 : priceAt pr.1 high = pp := by
        rw [priceAt_congr pr.1 s1 high (put high.toNat (by omega))]
      have f1 : priceAt s2 pr.2 = pp := by
        rw [hs2, priceAt_swap_fst pr.1 pr.2 high (by omega) (by omega)
          (by omega) (by omega)]
        exact pf0
      have f2 : ∀ k : Int, low ≤ k → k < pr.2 → priceAt s2 k ≤ pp := by
        intro k hk1 hk2
        rw [hs2, priceAt_swap_other pr.1 pr.2 high k (by omega) (by omega) (by omega)
          (by omega) (by omega)]
        exact ple k hk1 hk2
      have f3 : ∀ k : Int, pr.2 < k → k ≤ high → pp ≤ priceAt s2 k := by
        intro k hk1 hk2
        by_cases hkh : k = high
        · subst hkh
          rw [hs2, priceAt_swap_snd pr.1 pr.2 k (by omega) (by omega) (by omega) (by omega)]
          exact le_of_lt (pgt pr.2 (le_refl _) (by omega))
        · rw [hs2, priceAt_swap_other pr.1 pr.2 high k (by omega) (by omega) (by omega)
            (by omega) hkh]
          exact le_of_lt (pgt k (by omega) (by omega))
      have g1 : priceAt s3 pr.2 = pp := by
        rw [priceAt_congr s3 s2 pr.2 (ih1ut pr.2.toNat (by omega))]
        exact f1
      have g2 : ∀ k : Int, low ≤ k → k < pr.2 → priceAt s3 k ≤ pp := by
        intro k hk1 hk2
        exact ih1tr (fun x => x ≤ pp) (fun k2 h1 h2 => f2 k2 h1 (by omega)) k hk1 (by omega)
      have g3 : ∀ k : Int, pr.2 < k → k ≤ high → pp ≤ priceAt s3 k := by
        intro k hk1 hk2
        rw [priceAt_congr s3 s2 k (ih1ut k.toNat (by omega))]
        exact f3 k hk1 hk2
      have hv1 : priceAt s4 pr.2 = pp := by
        rw [priceAt_congr s4 s3 pr.2 (ih2ut pr.2.toNat (by omega))]
        exact g1
      have hv2 : ∀ k : Int, low ≤ k → k < pr.2 → priceAt s4 k ≤ pp := by
        intro k hk1 hk2
        rw [priceAt_congr s4 s3 k (ih2ut k.toNat (by omega))]
        exact g2 k hk1 hk2
      have hv3 : ∀ k : Int, pr.2 < k → k ≤ high → pp ≤ priceAt s4 k := by
        intro k hk1 hk2
        exact ih2tr (fun x => pp ≤ x) (fun k2 h1 h2 => g3 k2 (by omega) h2) k (by omega) hk2
      refine ⟨?_, ?_, ?_, ?_, ?_⟩
      · rw [hs4, ih2len, hlen3]
      · intro k hk
        rw [ih2ut k (by omega), ih1ut k (by omega),
          hs2, listSwap_getElem?_other pr.1 pr.2.toNat high.toNat k (by omega) (by omega),
          put k (by omega),
          hs1, listSwap_getElem?_other items m.toNat high.toNat k (by omega) (by omega)]
      · exact ih2perm.trans (ih1perm.trans ((listSwap_perm pr.1 pr.2.toNat high.toNat).trans
          (pperm.trans (listSwap_perm items m.toNat high.toNat))))
      · intro P hP k hk1 hk2
        have step1 : ∀ k2 : Int, low ≤ k2 → k2 ≤ high → P (priceAt s1 k2) := by
          rw [hs1]
          exact swap_transfer items m high low high P h0 (by omega) (by omega) (by omega)
            (le_refl _) (by omega) (by omega) hP
        have step2 : ∀ k2 : Int, low ≤ k2 → k2 ≤ high → P (priceAt pr.1 k2) := by
          intro k2 h1 h2
          by_cases h2h : k2 = high
          · subst h2h
            rw [priceAt_congr pr.1 s1 k2 (put k2.toNat (by omega))]
            exact step1 k2 h1 h2
          · exact ptr P (fun k3 h3 h4 => step1 k3 h3 (by omega)) k2 h1 (by omega)
        have step3 : ∀ k2 : Int, low ≤ k2 → k2 ≤ high → P (priceAt s2 k2) := by
          rw [hs2]
          exact swap_transfer pr.1 pr.2 high low high P h0 (by omega) (by omega) (by omega)
            (le_refl _) (by omega) (by omega) step2
        have step4 : ∀ k2 : Int, low ≤ k2 → k2 ≤ high → P (priceAt s3 k2) := by
          intro k2 h1 h2
          by_cases hk3 : k2 ≤ pr.2 - 1
          · exact ih1tr P (fun k3 h3 h4 => step3 k3 h3 (by omega)) k2 h1 hk3
          · rw [priceAt_congr s3 s2 k2 (ih1ut k2.toNat (by omega))]
            exact step3 k2 h1 h2
        by_cases hk : pr.2 + 1 ≤ k
        · exact ih2tr P (fun k3 h3 h4 => step4 k3 (by omega) h4) k hk hk2
        · rw [priceAt_congr s4 s3 k (ih2ut k.toNat (by omega))]
          exact step4 k hk1 hk2
      · intro t u ht htu hu
        have h4 : ∀ t2 u2 : Int, low ≤ t2 → t2 < u2 → u2 ≤ pr.2 - 1 →
            priceAt s4 t2 ≤ priceAt s4 u2 := by
          intro t2 u2 h1 h2 h3
          rw [priceAt_congr s4 s3 t2 (ih2ut t2.toNat (by omega)),
            priceAt_congr s4 s3 u2 (ih2ut u2.toNat (by omega))]
          exact ih1sort t2 u2 h1 h2 h3
        by_cases htl : t < pr.2
        · by_cases hul : u < pr.2
          · exact h4 t u ht htu (by omega)
          · by_cases hue : u = pr.2
            · rw [hue, hv1]
              exact hv2 t ht htl
            · exact le_trans (hv2 t ht htl) (hv3 u (by omega) hu)
        · by_cases hte : t = pr.2
          · rw [hte, hv1]
            exact hv3 u (by omega) hu
          · exact ih2sort t u (by omega) htu hu

/-! ### Binary search correctness -/

theorem bs_min_spec (n : Nat) :
    ∀ (s : List Property) (minP left right result : Int),
      (right + 1 - left).toNat ≤ n →
      (∀ t u : Int, 0 ≤ t → t < u → u < (s.length : Int) → priceAt s t ≤ priceAt s u) →
      0 ≤ left → left ≤ right + 1 → right < (s.length : Int) → result = right + 1 →
      (∀ k : Int, 0 ≤ k → k < left → priceAt s k < minP) →
      (∀ k : Int, right < k → k < (s.length : Int) → minP ≤ priceAt s k) →
      0 ≤ bs_min_loop s minP left right result ∧
      bs_min_loop s minP left right result ≤ (s.length : Int) ∧
      (∀ k : Int, 0 ≤ k → k < bs_min_loop s minP left right result → priceAt s k < minP) ∧
      (∀ k : Int, bs_min_loop s minP left right result ≤ k → k < (s.length : Int) →
        minP ≤ priceAt s k) := by
  induction n with
  | zero =>
    intro s minP left right result hn hsort h0 hlr hrl hres hA hB
    have hgt : ¬ (left ≤ right) := by omega
    rw [bs_min_loop, if_neg hgt]
    refine ⟨by omega, by omega, ?_, ?_⟩
    · intro k hk1 hk2
      exact hA k hk1 (by omega)
    · intro k hk1 hk2
      exact hB k (by omega) hk2
  | succ n ih =>
    intro s minP left right result hn hsort h0 hlr hrl hres hA hB
    by_cases hgt : left ≤ right
    · rw [bs_min_loop, if_pos hgt]
      simp only []
      have hmid : left ≤ (left + right) / 2 ∧ (left + right) / 2 ≤ right := by omega
      by_cases hm : minP ≤ priceAt s ((left + right) / 2)
      · rw [if_pos hm]
        refine ih s minP left ((left + right) / 2 - 1) ((left + right) / 2)
          (by omega) hsort h0 (by omega) (by omega) (by omega) hA ?_
        intro k hk1 hk2
        rcases eq_or_lt_of_le (show (left + right) / 2 ≤ k by omega) with h | h
        · rw [← h]
          exact hm
        · exact le_trans hm (hsort ((left + right) / 2) k (by omega) h hk2)
      · rw [if_neg hm]
        refine ih s minP ((left + right) / 2 + 1) right result
          (by omega) hsort (by omega) (by omega) hrl (by omega) ?_ hB
        intro k hk1 hk2
        rcases eq_or_lt_of_le (show k ≤ (left + right) / 2 by omega) with h | h
        · rw [h]
          omega
        · exact lt_of_le_of_lt (hsort k ((left + right) / 2) hk1 h (by omega)) (by omega)
    · rw [bs_min_loop, if_neg hgt]
      refine ⟨by omega, by omega, ?_, ?_⟩
      · intro k hk1 hk2
        exact hA k hk1 (by omega)
      · intro k hk1 hk2
        exact hB k (by omega) hk2

theorem bs_max_spec (n : Nat) :
    ∀ (s : List Property) (maxP left right result : Int),
      (right + 1 - left).toNat ≤ n →
      (∀ t u : Int, 0 ≤ t → t < u → u < (s.length : Int) → priceAt s t ≤ priceAt s u) →
      0 ≤ left → left ≤ right + 1 → right < (s.length : Int) → result = left - 1 →
      (∀ k : Int, 0 ≤ k → k < left → priceAt s k ≤ maxP) →
      (∀ k : Int, right < k → k < (s.length : Int) → maxP < priceAt s k) →
      -1 ≤ bs_max_loop s maxP left right result ∧
      bs_max_loop s maxP left right result < (s.length : Int) ∧
      (∀ k : Int, 0 ≤ k → k ≤ bs_max_loop s maxP left right result → priceAt s k ≤ maxP) ∧
      (∀ k : Int, bs_max_loop s maxP left right result < k → k < (s.length : Int) →
        maxP < priceAt s k) := by
  induction n with
  | zero =>
    intro s maxP left right result hn hsort h0 hlr hrl hres hA hB
    have hgt : ¬ (left ≤ right) := by omega
    rw [bs_max_loop, if_neg hgt]
    refine ⟨by omega, by omega, ?_, ?_⟩
    · intro k hk1 hk2
      exact hA k hk1 (by omega)
    · intro k hk1 hk2
      exact hB k (by omega) hk2
  | succ n ih =>
    intro s maxP left right result hn hsort h0 hlr hrl hres hA hB
    by_cases hgt : left ≤ right
    · rw [bs_max_loop, if_pos hgt]
      simp only []
      have hmid : left ≤ (left + right) / 2 ∧ (left + right) / 2 ≤ right := by omega
      by_cases hm : priceAt s ((left + right) / 2) ≤ maxP
      · rw [if_pos hm]
        refine ih s maxP ((left + right) / 2 + 1) right ((left + right) / 2)
          (by omega) hsort (by omega) (by omega) hrl (by omega) ?_ hB
        intro k hk1 hk2
        rcases eq_or_lt_of_le (show k ≤ (left + right) / 2 by omega) with h | h
        · rw [h]
          exact hm
        · exact le_trans (hsort k ((left + right) / 2) hk1 h (by omega)) hm
      · rw [if_neg hm]
        refine ih s maxP left ((left + right) / 2 - 1) result
          (by omega) hsort h0 (by omega) (by omega) (by omega) hA ?_
        intro k hk1 hk2
        rcases eq_or_lt_of_le (show (left + right) / 2 ≤ k by omega) with h | h
        · rw [← h]
          omega
        · exact lt_of_lt_of_le (by omega) (hsort ((left + right) / 2) k (by omega) h hk2)
    · rw [bs_max_loop, if_neg hgt]
      refine ⟨by omega, by omega, ?_, ?_⟩
      · intro k hk1 hk2
        exact hA k hk1 (by omega)
      · intro k hk1 hk2
        exact hB k (by omega) hk2

theorem binary_search_min_spec (s : List Property) (minP : Int)
    (hsort : ∀ t u : Int, 0 ≤ t → t < u → u < (s.length : Int) → priceAt s t ≤ priceAt s u) :
    0 ≤ binary_search_min_price s minP ∧
    binary_search_min_price s minP ≤ (s.length : Int) ∧
    (∀ k : Int, 0 ≤ k → k < binary_search_min_price s minP → priceAt s k < minP) ∧
    (∀ k : Int, binary_search_min_price s minP ≤ k → k < (s.length : Int) →
      minP ≤ priceAt s k) := by
  unfold binary_search_min_price
  exact bs_min_spec s.length s minP 0 ((s.length : Int) - 1) (s.length : Int)
    (by omega) hsort (by omega) (by omega) (by omega) (by omega)
    (fun k hk1 hk2 => ((by omega : False)).elim)
    (fun k hk1 hk2 => ((by omega : False)).elim)

theorem binary_search_max_spec (s : List Property) (maxP : Int)
    (hsort : ∀ t u : Int, 0 ≤ t → t < u → u < (s.length : Int) → priceAt s t ≤ priceAt s u) :
    -1 ≤ binary_search_max_price s maxP ∧
    binary_search_max_price s maxP < (s.length : Int) ∧
    (∀ k : Int, 0 ≤ k → k ≤ binary_search_max_price s maxP → priceAt s k ≤ maxP) ∧
    (∀ k : Int, binary_search_max_price s maxP < k → k < (s.length : Int) →
      maxP < priceAt s k) := by
  unfold binary_search_max_price
  exact bs_max_spec s.length s maxP 0 ((s.length : Int) - 1) (-1)
    (by omega) hsort (by omega) (by omega) (by omega) (by omega)
    (fun k hk1 hk2 => ((by omega : False)).elim)
    (fun k hk1 hk2 => ((by omega : False)).elim)

/-! ### Sortedness conversions -/

theorem priceAt_natCast (s : List Property) (i : Nat) (h : i < s.length) :
    priceAt s (i : Int) = s[i].price := by
  unfold priceAt
  rw [Int.toNat_natCast, List.getElem?_eq_getElem h]

theorem pairwise_to_priceAt (s : List Property)
    (h : s.Pairwise (fun a b => a.price ≤ b.price)) :
    ∀ t u : Int, 0 ≤ t → t < u → u < (s.length : Int) → priceAt s t ≤ priceAt s u := by
  intro t u h1 h2 h3
  have ht : t.toNat < s.length := by omega
  have hu : u.toNat < s.length := by omega
  rw [priceAt_eq_getElem s t ht, priceAt_eq_getElem s u hu]
  exact (List.pairwise_iff_getElem.mp h) t.toNat u.toNat ht hu (by omega)

theorem priceAt_to_pairwise (s : List Property)
    (h : ∀ t u : Int, 0 ≤ t → t < u → u < (s.length : Int) → priceAt s t ≤ priceAt s u) :
    s.Pairwise (fun a b => a.price ≤ b.price) := by
  rw [List.pairwise_iff_getElem]
  intro i j hi hj hij
  have := h i j (by omega) (by omega) (by omega)
  rwa [priceAt_natCast s i hi, priceAt_natCast s j hj] at this

/-! ### Sorting the whole collection -/

theorem sort_asc_length (e : PropertyListingEngine) :
    (sort_properties_by_price e true).length = e.properties.length := by
  unfold sort_properties_by_price
  by_cases h : e.properties = []
  · rw [if_pos h, h]
  · rw [if_neg h]
    have hlen : 0 < e.properties.length := List.length_pos.mpr h
    show (quick_sort_by_price e.properties 0 ((e.properties.length : Int) - 1)).length =
      e.properties.length
    exact (quick_sort_spec (e.properties.length) 0 ((e.properties.length : Int) - 1)
      e.properties (by omega) (by omega) (by omega)).1

theorem sort_asc_perm (e : PropertyListingEngine) :
    (sort_properties_by_price e true).Perm e.properties := by
  unfold sort_properties_by_price
  by_cases h : e.properties = []
  · rw [if_pos h, h]
  · rw [if_neg h]
    have hlen : 0 < e.properties.length := List.length_pos.mpr h
    show (quick_sort_by_price e.properties 0 ((e.properties.length : Int) - 1)).Perm
      e.properties
    exact (quick_sort_spec (e.properties.length) 0 ((e.properties.length : Int) - 1)
      e.properties (by omega) (by omega) (by omega)).2.2.1

theorem sort_asc_sorted (e : PropertyListingEngine) :
    (sort_properties_by_price e true).Pairwise (fun a b => a.price ≤ b.price) := by
  unfold sort_properties_by_price
  by_cases h : e.properties = []
  · rw [if_pos h]
    exact List.Pairwise.nil
  · rw [if_neg h]
    have hlen : 0 < e.properties.length := List.length_pos.mpr h
    obtain ⟨hlen2, hut, hperm, htr, hsorted⟩ :=
      quick_sort_spec (e.properties.length) 0 ((e.properties.length : Int) - 1)
        e.properties (by omega) (by omega) (by omega)
    show (quick_sort_by_price e.properties 0 ((e.properties.length : Int) - 1)).Pairwise
      (fun a b => a.price ≤ b.price)
    apply priceAt_to_pairwise
    intro t u h1 h2 h3
    rw [hlen2] at h3
    exact hsorted t u h1 h2 (by omega)

/-! ### Filter against a contiguous slice -/

theorem filter_take_nil (s : List Property) (p : Property → Bool) (a : Nat)
    (h : ∀ (i : Nat) (hi : i < s.length), i < a → p s[i] = false) :
    (s.take a).filter p = [] := by
  rw [List.filter_eq_nil_iff]
  intro x hx
  obtain ⟨i, hi, hxe⟩ := List.mem_iff_getElem.mp hx
  have hil : i < s.length := by
    rw [List.length_take] at hi
    omega
  have hia : i < a := by
    rw [List.length_take] at hi
    omega
  rw [List.getElem_take] at hxe
  rw [← hxe]
  simp [h i hil hia]

theorem filter_drop_nil (s : List Property) (p : Property → Bool) (a : Nat)
    (h : ∀ (i : Nat) (hi : i < s.length), a ≤ i → p s[i] = false) :
    (s.drop a).filter p = [] := by
  rw [List.filter_eq_nil_iff]
  intro x hx
  obtain ⟨i, hi, hxe⟩ := List.mem_iff_getElem.mp hx
  have hil : a + i < s.length := by
    rw [List.length_drop] at hi
    omega
  rw [List.getElem_drop] at hxe
  rw [← hxe]
  simp [h (a + i) hil (by omega)]

theorem filter_slice_self (s : List Property) (p : Property → Bool) (a m : Nat)
    (h : ∀ (i : Nat) (hi : i < s.length), a ≤ i → i < a + m → p s[i] = true) :
    ((s.drop a).take m).filter p = (s.drop a).take m := by
  rw [List.filter_eq_self]
  intro x hx
  obtain ⟨i, hi, hxe⟩ := List.mem_iff_getElem.mp hx
  have him : i < m := by
    rw [List.length_take] at hi
    omega
  have hil : i < (s.drop a).length := by
    rw [List.length_take] at hi
    omega
  have hil2 : a + i < s.length := by
    rw [List.length_drop] at hil
    omega
  rw [List.getElem_take, List.getElem_drop] at hxe
  rw [← hxe]
  exact h (a + i) hil2 (by omega) (by omega)

theorem filter_eq_slice (s : List Property) (p : Property → Bool) (a b : Int)
    (h0a : 0 ≤ a) (hab : a ≤ b)
    (hiff : ∀ (i : Nat) (hi : i < s.length), (p s[i] = true ↔ (a ≤ (i : Int) ∧ (i : Int) < b))) :
    s.filter p = listSlice s a b := by
  have hba : (b - a).toNat = b.toNat - a.toNat := by omega
  conv_lhs => rw [← List.take_append_drop a.toNat s]
  rw [List.filter_append,
    ← List.take_append_drop (b - a).toNat (s.drop a.toNat), List.filter_append,
    List.drop_drop]
  rw [filter_take_nil s p a.toNat ?h1, filter_slice_self s p a.toNat (b - a).toNat ?h2,
    filter_drop_nil s p (a.toNat + (b - a).toNat) ?h3]
  case h1 =>
    intro i hil hia
    rcases Bool.eq_false_or_eq_true (p s[i]) with ht | hf
    · have := (hiff i hil).mp ht
      omega
    · exact hf
  case h2 =>
    intro i hil hia him
    exact (hiff i hil).mpr (by omega)
  case h3 =>
    intro i hil hia
    rcases Bool.eq_false_or_eq_true (p s[i]) with ht | hf
    · have := (hiff i hil).mp ht
      omega
    · exact hf
  · simp [listSlice]

/-! ### Range search equals a linear filter of the sorted snapshot -/

theorem search_eq_filter (e : PropertyListingEngine) (lo hi : Int) :
    search_by_price_range e lo hi =
      (sort_properties_by_price e true).filter
        (fun p => decide (lo ≤ p.price ∧ p.price ≤ hi)) := by
  unfold search_by_price_range
  simp only []
  set s := sort_properties_by_price e true with hs
  have hsorted : s.Pairwise (fun a b => a.price ≤ b.price) := by
    rw [hs]
    exact sort_asc_sorted e
  have hsort := pairwise_to_priceAt s hsorted
  obtain ⟨hmin1, hmin2, hmin3, hmin4⟩ := binary_search_min_spec s lo hsort
  obtain ⟨hmax1, hmax2, hmax3, hmax4⟩ := binary_search_max_spec s hi hsort
  by_cases hbr : binary_search_min_price s lo ≤ binary_search_max_price s hi ∧
      binary_search_min_price s lo < (s.length : Int)
  · rw [if_pos hbr]
    refine (filter_eq_slice s _ (binary_search_min_price s lo)
      (binary_search_max_price s hi + 1) hmin1 (by omega) ?_).symm
    intro i hil
    constructor
    · intro hp
      rw [decide_eq_true_iff] at hp
      constructor
      · by_contra hcon
        push_neg at hcon
        have := hmin3 i (by omega) (by omega)
        rw [priceAt_natCast s i hil] at this
        omega
      · by_contra hcon
        push_neg at hcon
        have := hmax4 i (by omega) (by omega)
        rw [priceAt_natCast s i hil] at this
        omega
    · intro hp
      rw [decide_eq_true_iff]
      have h1 := hmin4 i hp.1 (by omega)
      have h2 := hmax3 i (by omega) (by omega)
      rw [priceAt_natCast s i hil] at h1 h2
      exact ⟨h1, h2⟩
  · rw [if_neg hbr]
    symm
    rw [List.filter_eq_nil_iff]
    intro x hx
    obtain ⟨i, hil, hxe⟩ := List.mem_iff_getElem.mp hx
    rw [← hxe]
    intro hp
    rw [decide_eq_true_iff] at hp
    have hge : binary_search_min_price s lo ≤ (i : Int) := by
      by_contra hcon
      push_neg at hcon
      have := hmin3 i (by omega) (by omega)
      rw [priceAt_natCast s i hil] at this
      omega
    have hle : (i : Int) ≤ binary_search_max_price s hi := by
      by_contra hcon
      push_neg at hcon
      have := hmax4 i (by omega) (by omega)
      rw [priceAt_natCast s i hil] at this
      omega
    exact hbr ⟨by omega, by omega⟩

/-! ### The three-view index invariant -/

theorem engineInv_empty : EngineInv emptyEngine := by
  refine ⟨?_, ?_, ?_, ?_, ?_⟩
  · intro i p hp
    simp [emptyEngine, alistLookup] at hp
  · intro p hp
    simp [emptyEngine] at hp
  · intro k b hb
    simp [emptyEngine, alistLookup] at hb
  · intro p hp
    simp [emptyEngine] at hp
  · intro p hp
    simp [emptyEngine] at hp

theorem engineInv_add (e : PropertyListingEngine) (t l : List Nat) (price : Int)
    (ty : List Nat) (hInv : EngineInv e) : EngineInv (add_property e t l price ty).2 := by
  have hfresh : alistLookup e.id_map e.next_id = none := by
    cases hl : alistLookup e.id_map e.next_id with
    | none => rfl
    | some q =>
      have h1 := hInv.idmap_sound _ _ hl
      have h2 := hInv.ids_lt q h1.2
      omega
  cases hbl : alistLookup e.location_map (hash_location l) with
  | none =>
    have hshape : (add_property e t l price ty).2 =
        ⟨e.properties ++ [⟨e.next_id, t, l, price, ty⟩],
         alistInsert e.location_map (hash_location l) [⟨e.next_id, t, l, price, ty⟩],
         alistInsert e.id_map e.next_id ⟨e.next_id, t, l, price, ty⟩, e.next_id + 1⟩ := by
      unfold add_property
      simp only []
      rw [hbl]
    rw [hshape]
    refine ⟨?_, ?_, ?_, ?_, ?_⟩
    · intro i p hp
      by_cases hi : e.next_id = i
      · subst hi
        rw [alistLookup_insert_self] at hp
        cases hp
        exact ⟨rfl, by simp⟩
      · rw [alistLookup_insert_ne _ _ _ _ hi] at hp
        have := hInv.idmap_sound i p hp
        exact ⟨this.1, by simp [this.2]⟩
    · intro p hp
      rcases List.mem_append.mp hp with h | h
      · have hid := hInv.ids_lt p h
        rw [alistLookup_insert_ne _ _ _ _ (by omega)]
        exact hInv.idmap_complete p h
      · rw [List.mem_singleton] at h
        subst h
        exact alistLookup_insert_self _ _ _
    · intro k b hkb
      by_cases hk : hash_location l = k
      · subst hk
        rw [alistLookup_insert_self] at hkb
        cases hkb
        intro p hp
        rw [List.mem_singleton] at hp
        subst hp
        exact ⟨by simp, rfl⟩
      · rw [alistLookup_insert_ne _ _ _ _ hk] at hkb
        intro p hp
        have := hInv.loc_sound k b hkb p hp
        exact ⟨by simp [this.1], this.2⟩
    · intro p hp
      rcases List.mem_append.mp hp with h | h
      · obtain ⟨b0, hb0, hpb0⟩ := hInv.loc_complete p h
        by_cases hpk : hash_location p.location = hash_location l
        · rw [hpk] at hb0
          rw [hbl] at hb0
          cases hb0
        · rw [alistLookup_insert_ne _ _ _ _ (fun hx => hpk hx.symm)]
          exact ⟨b0, hb0, hpb0⟩
      · rw [List.mem_singleton] at h
        subst h
        exact ⟨_, alistLookup_insert_self _ _ _, by simp⟩
    · intro p hp
      rcases List.mem_append.mp hp with h | h
      · have := hInv.ids_lt p h
        show p.id < e.next_id + 1
        omega
      · rw [List.mem_singleton] at h
        subst h
        show e.next_id < e.next_id + 1
        omega
  | some bucket =>
    have hshape : (add_property e t l price ty).2 =
        ⟨e.properties ++ [⟨e.next_id, t, l, price, ty⟩],
         alistInsert e.location_map (hash_location l)
           (bucket ++ [⟨e.next_id, t, l, price, ty⟩]),
         alistInsert e.id_map e.next_id ⟨e.next_id, t, l, price, ty⟩, e.next_id + 1⟩ := by
      unfold add_property
      simp only []
      rw [hbl]
    rw [hshape]
    refine ⟨?_, ?_, ?_, ?_, ?_⟩
    · intro i p hp
      by_cases hi : e.next_id = i
      · subst hi
        rw [alistLookup_insert_self] at hp
        cases hp
        exact ⟨rfl, by simp⟩
      · rw [alistLookup_insert_ne _ _ _ _ hi] at hp
        have := hInv.idmap_sound i p hp
        exact ⟨this.1, by simp [this.2]⟩
    · intro p hp
      rcases List.mem_append.mp hp with h | h
      · have hid := hInv.ids_lt p h
        rw [alistLookup_insert_ne _ _ _ _ (by omega)]
        exact hInv.idmap_complete p h
      · rw [List.mem_singleton] at h
        subst h
        exact alistLookup_insert_self _ _ _
    · intro k b hkb
      by_cases hk : hash_location l = k
      · subst hk
        rw [alistLookup_insert_self] at hkb
        cases hkb
        intro p hp
        rcases List.mem_append.mp hp with h | h
        · have := hInv.loc_sound _ bucket hbl p h
          exact ⟨by simp [this.1], this.2⟩
        · rw [List.mem_singleton] at h
          subst h
          exact ⟨by simp, rfl⟩
      · rw [alistLookup_insert_ne _ _ _ _ hk] at hkb
        intro p hp
        have := hInv.loc_sound k b hkb p hp
        exact ⟨by simp [this.1], this.2⟩
    · intro p hp
      rcases List.mem_append.mp hp with h | h
      · obtain ⟨b0, hb0, hpb0⟩ := hInv.loc_complete p h
        by_cases hpk : hash_location p.location = hash_location l
        · rw [hpk] at hb0
          rw [hbl] at hb0
          cases hb0
          refine ⟨_, by rw [hpk]; exact alistLookup_insert_self _ _ _, ?_⟩
          simp [hpb0]
        · rw [alistLookup_insert_ne _ _ _ _ (fun hx => hpk hx.symm)]
          exact ⟨b0, hb0, hpb0⟩
      · rw [List.mem_singleton] at h
        subst h
        exact ⟨_, alistLookup_insert_self _ _ _, by simp⟩
    · intro p hp
      rcases List.mem_append.mp hp with h | h
      · have := hInv.ids_lt p h
        show p.id < e.next_id + 1
        omega
      · rw [List.mem_singleton] at h
        subst h
        show e.next_id < e.next_id + 1
        omega

theorem engineInv_delete (e : PropertyListingEngine) (i : Nat) (hInv : EngineInv e) :
    EngineInv (delete_property e i).2 := by
  cases hl : alistLookup e.id_map i with
  | none =>
    have hsame : delete_property e i = (false, e) := by
      unfold delete_property
      rw [hl]
    rw [hsame]
    exact hInv
  | some q =>
    have hq := hInv.idmap_sound i q hl
    obtain ⟨b0, hb0, hqb0⟩ := hInv.loc_complete q hq.2
    have hshape : (delete_property e i).2 =
        ⟨e.properties.filter (fun p => decide (p.id ≠ i)),
         alistInsert e.location_map (hash_location q.location)
           (b0.filter (fun p => decide (p.id ≠ i))),
         alistErase e.id_map i, e.next_id⟩ := by
      unfold delete_property
      rw [hl]
      simp only []
      rw [hb0]
    rw [hshape]
    refine ⟨?_, ?_, ?_, ?_, ?_⟩
    · intro i2 p hp
      by_cases hi2 : i = i2
      · subst hi2
        rw [alistLookup_erase_self] at hp
        cases hp
      · rw [alistLookup_erase_ne _ _ _ hi2] at hp
        have hs := hInv.idmap_sound i2 p hp
        refine ⟨hs.1, ?_⟩
        rw [List.mem_filter]
        refine ⟨hs.2, ?_⟩
        rw [decide_eq_true_iff]
        omega
    · intro p hp
      rw [List.mem_filter] at hp
      have hpid : p.id ≠ i := by simpa using hp.2
      rw [alistLookup_erase_ne _ _ _ (fun hx => hpid hx.symm)]
      exact hInv.idmap_complete p hp.1
    · intro k b hkb
      by_cases hk : hash_location q.location = k
      · subst hk
        rw [alistLookup_insert_self] at hkb
        cases hkb
        intro p hp
        rw [List.mem_filter] at hp
        have hs := hInv.loc_sound _ b0 hb0 p hp.1
        refine ⟨?_, hs.2⟩
        rw [List.mem_filter]
        exact ⟨hs.1, hp.2⟩
      · rw [alistLookup_insert_ne _ _ _ _ hk] at hkb
        intro p hp
        have hps := hInv.loc_sound k b hkb p hp
        refine ⟨?_, hps.2⟩
        rw [List.mem_filter]
        refine ⟨hps.1, ?_⟩
        rw [decide_eq_true_iff]
        intro hcon
        have hlp := hInv.idmap_complete p hps.1
        rw [hcon, hl] at hlp
        cases hlp
        exact hk hps.2
    · intro p hp
      rw [List.mem_filter] at hp
      have hpid : p.id ≠ i := by simpa using hp.2
      obtain ⟨b1, hb1, hpb1⟩ := hInv.loc_complete p hp.1
      by_cases hpk : hash_location p.location = hash_location q.location
      · rw [hpk, hb0] at hb1
        cases hb1
        refine ⟨_, by rw [hpk]; exact alistLookup_insert_self _ _ _, ?_⟩
        rw [List.mem_filter]
        refine ⟨hpb1, ?_⟩
        rw [decide_eq_true_iff]
        exact hpid
      · rw [alistLookup_insert_ne _ _ _ _ (fun hx => hpk hx.symm)]
        exact ⟨b1, hb1, hpb1⟩
    · intro p hp
      rw [List.mem_filter] at hp
      exact hInv.ids_lt p hp.1

theorem engineInv_applyOp (e : PropertyListingEngine) (op : EngineOp) (h : EngineInv e) :
    EngineInv (applyOp e op) := by
  cases op with
  | add t l p ty => exact engineInv_add e t l p ty h
  | del i => exact engineInv_delete e i h

theorem engineInv_foldl (ops : List EngineOp) :
    ∀ e : PropertyListingEngine, EngineInv e → EngineInv (ops.foldl applyOp e) := by
  induction ops with
  | nil => exact fun e h => h
  | cons op rest ih =>
    intro e h
    rw [List.foldl_cons]
    exact ih (applyOp e op) (engineInv_applyOp e op h)

theorem engineInv_run (ops : List EngineOp) : EngineInv (run_ops ops) :=
  engineInv_foldl ops emptyEngine engineInv_empty

/-! ### Delete and id-trace helper lemmas -/

theorem delete_absent (e : PropertyListingEngine) (i : Nat)
    (h : alistLookup e.id_map i = none) : delete_property e i = (false, e) := by
  unfold delete_property
  rw [h]

theorem delete_found_fst (e : PropertyListingEngine) (i : Nat) (q : Property)
    (h : alistLookup e.id_map i = some q) : (delete_property e i).1 = true := by
  unfold delete_property
  rw [h]

theorem delete_found_id_map (e : PropertyListingEngine) (i : Nat) (q : Property)
    (h : alistLookup e.id_map i = some q) :
    (delete_property e i).2.id_map = alistErase e.id_map i := by
  unfold delete_property
  rw [h]

theorem delete_next_id (e : PropertyListingEngine) (i : Nat) :
    (delete_property e i).2.next_id = e.next_id := by
  unfold delete_property
  cases h : alistLookup e.id_map i with
  | none => rfl
  | some q => rfl

theorem run_ids_inv (ops : List EngineOp) :
    ∀ s : PropertyListingEngine × List Nat,
      (∀ j, j ∈ s.2 → j < s.1.next_id) → s.2.Pairwise (fun a b => a < b) →
      (∀ j, j ∈ (ops.foldl applyOpIds s).2 → j < (ops.foldl applyOpIds s).1.next_id) ∧
      (ops.foldl applyOpIds s).2.Pairwise (fun a b => a < b) := by
  induction ops with
  | nil => exact fun s h1 h2 => ⟨h1, h2⟩
  | cons op rest ih =>
    intro s h1 h2
    rw [List.foldl_cons]
    apply ih
    · intro j hj
      cases op with
      | add t l p ty =>
        simp only [applyOpIds] at hj ⊢
        rcases List.mem_append.mp hj with h | h
        · have := h1 j h
          have hnx : (add_property s.1 t l p ty).2.next_id = s.1.next_id + 1 := rfl
          omega
        · rw [List.mem_singleton] at h
          have hfst : (add_property s.1 t l p ty).1 = s.1.next_id := rfl
          have hnx : (add_property s.1 t l p ty).2.next_id = s.1.next_id + 1 := rfl
          omega
      | del i =>
        simp only [applyOpIds] at hj ⊢
        have hnx := delete_next_id s.1 i
        have := h1 j hj
        omega
    · cases op with
      | add t l p ty =>
        simp only [applyOpIds]
        rw [List.pairwise_append]
        refine ⟨h2, by simp, ?_⟩
        intro a ha b hb
        rw [List.mem_singleton] at hb
        have := h1 a ha
        have hfst : (add_property s.1 t l p ty).1 = s.1.next_id := rfl
        omega
      | del i =>
        simp only [applyOpIds]
        exact h2

/-! ### Claim theorems -/

/-- C1: for all `min_price ≤ max_price`, `search_by_price_range` returns exactly the
records of the primary collection whose price lies in the closed interval
`[min_price, max_price]` (multiset equality with the linear filter), ordered ascending
by price; in particular it returns the empty sequence when `min_price` exceeds every
stored price or `max_price` is below every stored price. -/
theorem spec_range_search_correct (e : PropertyListingEngine) (min_price max_price : Int)
    (h : min_price ≤ max_price) :
    (search_by_price_range e min_price max_price).Perm
      ((get_all_properties e).filter
        (fun p => decide (min_price ≤ p.price ∧ p.price ≤ max_price))) ∧
    (search_by_price_range e min_price max_price).Pairwise
      (fun a b => a.price ≤ b.price) ∧
    ((∀ p, p ∈ get_all_properties e → p.price < min_price) →
      search_by_price_range e min_price max_price = []) ∧
    ((∀ p, p ∈ get_all_properties e → max_price < p.price) →
      search_by_price_range e min_price max_price = []) := by
  refine ⟨?_, ?_, ?_, ?_⟩
  · rw [search_eq_filter]
    exact List.Perm.filter _ (sort_asc_perm e)
  · rw [search_eq_filter]
    exact List.Pairwise.sublist (List.filter_sublist _) (sort_asc_sorted e)
  · intro hall
    rw [search_eq_filter, List.filter_eq_nil_iff]
    intro x hx
    have hxm : x ∈ e.properties := ((sort_asc_perm e).mem_iff).mp hx
    have := hall x hxm
    simp only [decide_eq_true_iff]
    omega
  · intro hall
    rw [search_eq_filter, List.filter_eq_nil_iff]
    intro x hx
    have hxm : x ∈ e.properties := ((sort_asc_perm e).mem_iff).mp hx
    have := hall x hxm
    simp only [decide_eq_true_iff]
    omega

/-- C1 witness: the range-search theorem instantiated at a concrete engine. -/
theorem spec_range_search_correct_witness :
    (search_by_price_range exampleEngine 2 5).Perm
      ((get_all_properties exampleEngine).filter
        (fun p => decide ((2 : Int) ≤ p.price ∧ p.price ≤ 5))) :=
  (spec_range_search_correct exampleEngine 2 5 (by decide)).1

/-- C2: after every finite sequence of add and delete operations, the three index
views agree: a record is in the primary collection iff its id maps to it in the id
view, iff it appears in a location bucket (necessarily the bucket keyed by the hash
of its own location, and in no bucket under any other key); and every id-view entry
has a matching primary-collection entry. -/
theorem spec_index_views_agree (ops : List EngineOp) (p : Property) :
    (p ∈ (run_ops ops).properties ↔
      alistLookup (run_ops ops).id_map p.id = some p) ∧
    (p ∈ (run_ops ops).properties ↔
      ∃ b, alistLookup (run_ops ops).location_map (hash_location p.location) = some b ∧
        p ∈ b) ∧
    (∀ k b, alistLookup (run_ops ops).location_map k = some b → p ∈ b →
      k = hash_location p.location) ∧
    (∀ i q, alistLookup (run_ops ops).id_map i = some q → q ∈ (run_ops ops).properties) := by
  have hInv := engineInv_run ops
  refine ⟨⟨fun h => hInv.idmap_complete p h, fun h => (hInv.idmap_sound _ _ h).2⟩,
    ⟨fun h => hInv.loc_complete p h, ?_⟩, ?_, fun i q h => (hInv.idmap_sound i q h).2⟩
  · rintro ⟨b, hb, hpb⟩
    exact (hInv.loc_sound _ _ hb p hpb).1
  · intro k b hb hpb
    exact ((hInv.loc_sound k b hb p hpb).2).symm

/-- C2 witness: the view-agreement theorem instantiated at a concrete run. -/
theorem spec_index_views_agree_witness :
    (⟨1, [], [], 5, []⟩ : Property) ∈ (run_ops [EngineOp.add [] [] 5 []]).properties ↔
      alistLookup (run_ops [EngineOp.add [] [] 5 []]).id_map 1 =
        some ⟨1, [], [], 5, []⟩ :=
  (spec_index_views_agree [EngineOp.add [] [] 5 []] ⟨1, [], [], 5, []⟩).1

/-- C3: `sort_properties_by_price` with `ascending = true` returns a permutation of
the primary collection ordered ascending by price; being a pure function of the
engine state, it leaves the stored primary collection unchanged. -/
theorem spec_sort_ascending (e : PropertyListingEngine) :
    (sort_properties_by_price e true).Perm (get_all_properties e) ∧
    (sort_properties_by_price e true).Pairwise (fun a b => a.price ≤ b.price) :=
  ⟨sort_asc_perm e, sort_asc_sorted e⟩

/-- C4 counterexample: the location key function does NOT strip all whitespace, only
the space character: on the raw text "a\tb" (codes `[97, 9, 98]`) it disagrees with
the spec-described all-whitespace-stripping hash, and the pair "a\tb" / "ab" —
which normalize to the same text under all-whitespace stripping — get different keys. -/
theorem spec_hash_whitespace_counterexample :
    hash_location [97, 9, 98] ≠ spec_hash_location [97, 9, 98] ∧
    (([97, 9, 98].map pyLower).filter (fun c => !(isPythonSpace c)) =
      ([97, 98].map pyLower).filter (fun c => !(isPythonSpace c))) ∧
    hash_location [97, 9, 98] ≠ hash_location [97, 98] := by
  refine ⟨by decide, by decide, by decide⟩

/-- C4 (amended): the location key function lower-cases the string, strips all SPACE
characters (code 32) — not other whitespace — then folds
`hash = (31*hash + code) mod 2^32` left-to-right; the key is below `2^32`, any two
raw strings equal after that normalization get the same key, and in particular
"New York" and "new  york" are routed to the same bucket. -/
theorem spec_hash_space_normalization :
    (∀ s : List Nat, hash_location s < 4294967296) ∧
    (∀ s1 s2 : List Nat,
      (s1.map pyLower).filter (fun c => decide (c ≠ 32)) =
        (s2.map pyLower).filter (fun c => decide (c ≠ 32)) →
      hash_location s1 = hash_location s2) ∧
    hash_location codesNewYork = hash_location codesNewYork2 :=
  ⟨fun s => hash_location_lt s, fun s1 s2 h => hash_location_congr s1 s2 h, by decide⟩

/-- C4 witness: the normalization-congruence part applied to "a b" versus "ab". -/
theorem spec_hash_space_normalization_witness :
    hash_location [97, 32, 98] = hash_location [97, 98] :=
  spec_hash_space_normalization.2.1 [97, 32, 98] [97, 98] (by decide)

/-- C5: on a price-sorted sequence, the lower-bound search returns the smallest index
whose price is `≥ min_price` (the sequence length when none qualifies: everything
below the result is `< min_price`, everything from it on is `≥ min_price`), and the
upper-bound search returns the largest index whose price is `≤ max_price` (`-1` when
none qualifies). -/
theorem spec_binary_search_boundaries (s : List Property)
    (hs : s.Pairwise (fun a b => a.price ≤ b.price)) (min_price max_price : Int) :
    (0 ≤ binary_search_min_price s min_price ∧
     binary_search_min_price s min_price ≤ (s.length : Int) ∧
     (∀ k : Int, 0 ≤ k → k < binary_search_min_price s min_price →
       priceAt s k < min_price) ∧
     (∀ k : Int, binary_search_min_price s min_price ≤ k → k < (s.length : Int) →
       min_price ≤ priceAt s k)) ∧
    (-1 ≤ binary_search_max_price s max_price ∧
     binary_search_max_price s max_price ≤ (s.length : Int) - 1 ∧
     (∀ k : Int, 0 ≤ k → k ≤ binary_search_max_price s max_price →
       priceAt s k ≤ max_price) ∧
     (∀ k : Int, binary_search_max_price s max_price < k → k < (s.length : Int) →
       max_price < priceAt s k)) := by
  have hsort := pairwise_to_priceAt s hs
  obtain ⟨a1, a2, a3, a4⟩ := binary_search_min_spec s min_price hsort
  obtain ⟨b1, b2, b3, b4⟩ := binary_search_max_spec s max_price hsort
  exact ⟨⟨a1, a2, a3, a4⟩, ⟨b1, by omega, b3, b4⟩⟩

/-- C5 witness: the boundary-search theorem instantiated at a concrete sorted list. -/
theorem spec_binary_search_boundaries_witness :
    0 ≤ binary_search_min_price exampleSorted 3 ∧
    binary_search_min_price exampleSorted 3 ≤ (exampleSorted.length : Int) :=
  ⟨(spec_binary_search_boundaries exampleSorted (by decide) 3 3).1.1,
   (spec_binary_search_boundaries exampleSorted (by decide) 3 3).1.2.1⟩

/-- C6: deleting an id absent from the id view returns `false` and leaves the whole
engine state (all three views and the id counter) unchanged; deleting a live id twice
returns `true` then `false`, and the second call leaves the state after the first
call unchanged. -/
theorem spec_delete_missing_noop (e : PropertyListingEngine) (i : Nat) :
    (alistLookup e.id_map i = none → delete_property e i = (false, e)) ∧
    (∀ q, alistLookup e.id_map i = some q →
      (delete_property e i).1 = true ∧
      delete_property (delete_property e i).2 i = (false, (delete_property e i).2)) := by
  constructor
  · exact delete_absent e i
  · intro q h
    refine ⟨delete_found_fst e i q h, ?_⟩
    apply delete_absent
    rw [delete_found_id_map e i q h]
    exact alistLookup_erase_self _ _

/-- C6 witness: delete-twice on a concrete engine with a live id. -/
theorem spec_delete_missing_noop_witness :
    (delete_property exampleEngine 1).1 = true ∧
    delete_property (delete_property exampleEngine 1).2 1 =
      (false, (delete_property exampleEngine 1).2) :=
  (spec_delete_missing_noop exampleEngine 1).2 ⟨1, [], [], 3, []⟩ (by decide)

/-- C7: add always succeeds and returns the id it assigns (the current counter), and
over any finite sequence of add and delete operations the ids returned by successive
adds are strictly increasing, so no id is ever reassigned, even after deletion. -/
theorem spec_ids_strictly_increasing :
    (∀ (e : PropertyListingEngine) (t l : List Nat) (p : Int) (ty : List Nat),
      (add_property e t l p ty).1 = e.next_id) ∧
    (∀ ops : List EngineOp, (run_ops_ids ops).2.Pairwise (fun a b => a < b)) := by
  constructor
  · intro e t l p ty
    rfl
  · intro ops
    unfold run_ops_ids
    exact (run_ids_inv ops (emptyEngine, []) (by simp) (by simp)).2

/-- C8: sorting descending returns exactly the reverse of sorting ascending,
element for element. -/
theorem spec_descending_is_reverse (e : PropertyListingEngine) :
    sort_properties_by_price e false = (sort_properties_by_price e true).reverse := by
  unfold sort_properties_by_price
  by_cases h : e.properties = []
  · rw [if_pos h, if_pos h]
    rfl
  · rw [if_neg h, if_neg h]
    rfl

/-- C9: even when `min_price > max_price` (a case the caller layer is supposed to
rule out), `search_by_price_range` returns the empty sequence. -/
theorem spec_inverted_range_empty (e : PropertyListingEngine) (min_price max_price : Int)
    (h : max_price < min_price) : search_by_price_range e min_price max_price = [] := by
  rw [search_eq_filter, List.filter_eq_nil_iff]
  intro x hx
  simp only [decide_eq_true_iff]
  omega

/-- C9 witness: an inverted range on a concrete engine. -/
theorem spec_inverted_range_empty_witness :
    search_by_price_range exampleEngine 5 2 = [] :=
  spec_inverted_range_empty exampleEngine 5 2 (by decide)

/-- C10: the quicksort recursion and the two binary-search loops are total functions
(defined by well-founded recursion on `high - low`, `high - current`, and the window
width `right + 1 - left`), and each satisfies its defining recurrence on every input
— including every valid and invalid bound — so all three terminate everywhere. -/
theorem spec_recursions_terminate :
    (∀ (items : List Property) (pivot_price left_pointer current high : Int),
      partition_loop items pivot_price left_pointer current high =
        if current < high then
          if priceAt items current ≤ pivot_price then
            partition_loop (listSwap items left_pointer.toNat current.toNat) pivot_price
              (left_pointer + 1) (current + 1) high
          else partition_loop items pivot_price left_pointer (current + 1) high
        else (items, left_pointer)) ∧
    (∀ (items : List Property) (low high : Int),
      quick_sort_by_price items low high =
        if low ≥ high then items
        else
          let mid : Int := (low + high) / 2
          let items1 := listSwap items mid.toNat high.toNat
          let pivot_price := priceAt items1 high
          let pr := partition_loop items1 pivot_price low low high
          let items2 := listSwap pr.1 pr.2.toNat high.toNat
          let items3 := quick_sort_by_price items2 low (pr.2 - 1)
          quick_sort_by_price items3 (pr.2 + 1) high) ∧
    (∀ (s : List Property) (min_price left right result : Int),
      bs_min_loop s min_price left right result =
        if left ≤ right then
          let mid := (left + right) / 2
          if min_price ≤ priceAt s mid then bs_min_loop s min_price left (mid - 1) mid
          else bs_min_loop s min_price (mid + 1) right result
        else result) ∧
    (∀ (s : List Property) (max_price left right result : Int),
      bs_max_loop s max_price left right result =
        if left ≤ right then
          let mid := (left + right) / 2
          if priceAt s mid ≤ max_price then bs_max_loop s max_price (mid + 1) right mid
          else bs_max_loop s max_price left (mid - 1) result
        else result) := by
  refine ⟨?_, ?_, ?_, ?_⟩
  · intro items pivot_price left_pointer current high
    rw [partition_loop]
  · intro items low high
    rw [quick_sort_by_price]
  · intro s min_price left right result
    rw [bs_min_loop]
  · intro s max_price left right result
    rw [bs_max_loop]
